import Mathlib

/-!
Verification of the contact extractor and editor of the Name-Registration app
(`src/App.tsx`).  Strings are modelled as `List Char`; JavaScript regular
expression and string primitives used by the source are embedded explicitly.
-/

set_option maxRecDepth 4000

namespace NameReg

/-- Characters of a string literal, used to write concrete inputs. -/
def str (s : String) : List Char := s.data

/-- The JavaScript whitespace class: characters matched by the regexp class
`\s` and removed by `String.prototype.trim`. -/
def isJsWhitespace (c : Char) : Bool :=
  let n := c.toNat
  n == 9 || n == 10 || n == 11 || n == 12 || n == 13 || n == 32 ||
  n == 0xA0 || n == 0x1680 || (0x2000 ≤ n && n ≤ 0x200A) ||
  n == 0x2028 || n == 0x2029 || n == 0x202F || n == 0x205F ||
  n == 0x3000 || n == 0xFEFF

/-- `String.prototype.trim`: strip leading and trailing whitespace. -/
def jsTrim (l : List Char) : List Char :=
  ((l.dropWhile isJsWhitespace).reverse.dropWhile isJsWhitespace).reverse

/-- `inputValue.split('\n')` (App.tsx line 42). -/
def splitOnNewline : List Char → List (List Char)
  | [] => [[]]
  | c :: rest =>
    if c = '\n' then [] :: splitOnNewline rest
    else
      match splitOnNewline rest with
      | [] => [[c]]
      | l :: ls => (c :: l) :: ls

/-- The character class `[0-9\s-]` of the phone-detection regexp
(App.tsx line 49). -/
def isPhoneClassChar (c : Char) : Bool :=
  c.isDigit || isJsWhitespace c || c == '-'

/-- Greedy attempt of the regexp `\+?[0-9\s-]{7,}` at the start of the
string: an optional leading plus sign, then the maximal run of class
characters, accepted when that run has at least 7 characters (the `{7,}`
counter applies to the class only, not to the plus sign). -/
def tryMatchHere : List Char → Option (List Char)
  | [] => none
  | c :: rest =>
    if c = '+' then
      let run := rest.takeWhile isPhoneClassChar
      if 7 ≤ run.length then some ('+' :: run) else none
    else
      let run := (c :: rest).takeWhile isPhoneClassChar
      if 7 ≤ run.length then some run else none

/-- `line.match(/\+?[0-9\s-]{7,}/)` (App.tsx line 49): the regexp engine
attempts a greedy match at each position from the left and returns the first
success. -/
def firstPhoneMatch : List Char → Option (List Char)
  | [] => none
  | c :: rest =>
    match tryMatchHere (c :: rest) with
    | some m => some m
    | none => firstPhoneMatch rest

/-- The detection rule exactly as the claim words it: the full run
*including* the optional leading plus sign must have length at least 7. -/
def claimTryMatchHere : List Char → Option (List Char)
  | [] => none
  | c :: rest =>
    if c = '+' then
      let run := rest.takeWhile isPhoneClassChar
      if 7 ≤ run.length + 1 then some ('+' :: run) else none
    else
      let run := (c :: rest).takeWhile isPhoneClassChar
      if 7 ≤ run.length then some run else none

/-- First-position scan for `claimTryMatchHere`. -/
def claimFirstMatch : List Char → Option (List Char)
  | [] => none
  | c :: rest =>
    match claimTryMatchHere (c :: rest) with
    | some m => some m
    | none => claimFirstMatch rest

/-- One record, `interface Contact` (App.tsx lines 6-9). -/
structure Contact where
  name : List Char
  phone : List Char
deriving DecidableEq, Repr

/-- `line.replace(phoneRaw, '')` with a string pattern: remove the first
occurrence of `pat` (App.tsx line 54). -/
def removeFirstOcc (pat : List Char) : List Char → List Char
  | [] => []
  | c :: rest =>
    if pat.isPrefixOf (c :: rest) then (c :: rest).drop pat.length
    else c :: removeFirstOcc pat rest

/-- Characters kept by the name-cleaning regexp
`[^a-zA-Z؀-ۿ\s]` (App.tsx line 55). -/
def isNameChar (c : Char) : Bool :=
  ('a' ≤ c && c ≤ 'z') || ('A' ≤ c && c ≤ 'Z') ||
  (0x600 ≤ c.toNat && c.toNat ≤ 0x6FF) || isJsWhitespace c

/-- `replace(/\D/g, '')`: keep the ASCII digits only (App.tsx line 53). -/
def cleanPhone (l : List Char) : List Char := l.filter Char.isDigit

/-- Body of the `lines.forEach` loop of `handleAddContacts`
(App.tsx lines 46-61).  The state is the accumulated `newContacts` array and
the `existingPhones` set (modelled as a list with membership). -/
def lineStep (st : List Contact × List (List Char)) (line : List Char) :
    List Contact × List (List Char) :=
  if jsTrim line = [] then st
  else
    match firstPhoneMatch line with
    | none => st
    | some phoneRaw =>
      if jsTrim ((removeFirstOcc phoneRaw line).filter isNameChar) ≠ [] ∧
          cleanPhone phoneRaw ≠ [] ∧ cleanPhone phoneRaw ∉ st.2 then
        (st.1 ++ [{ name := jsTrim ((removeFirstOcc phoneRaw line).filter isNameChar),
                    phone := cleanPhone phoneRaw }],
          cleanPhone phoneRaw :: st.2)
      else st

/-- The batch extractor: the `lines.forEach` loop of `handleAddContacts`
run over all lines, returning the accepted records in order
(App.tsx lines 42-61). -/
def extractBatch (lines : List (List Char)) (existingPhones : List (List Char)) :
    List Contact :=
  (lines.foldl lineStep ([], existingPhones)).1

/-- Modelled from the spec: the collation key of one character under
`localeCompare(·, 'ar')`, which is not part of the repository source.  The
spec says letters compare by Arabic alphabetical order; in CLDR the Arabic
locale reorders the Arabic script first, and within the block U+0600-U+06FF
code-point order follows the Arabic alphabet, so Arabic-block characters
keep their code point and every other character is placed after them. -/
def arCharKey (c : Char) : Nat :=
  if 0x600 ≤ c.toNat ∧ c.toNat ≤ 0x6FF then c.toNat else 0x110000 + c.toNat

/-- Collation key of a name. -/
def arKey (l : List Char) : List Nat := l.map arCharKey

/-- Strict lexicographic order on key lists. -/
def lexLt : List Nat → List Nat → Bool
  | [], [] => false
  | [], _ :: _ => true
  | _ :: _, [] => false
  | a :: as, b :: bs => a < b || (a == b && lexLt as bs)

/-- Modelled from the spec: `a.localeCompare(b, 'ar') < 0`. -/
def nameLt (a b : List Char) : Bool := lexLt (arKey a) (arKey b)

/-- Insert a contact after every contact whose name is not strictly
greater, so that equal names keep their original relative order. -/
def insertContact (a : Contact) : List Contact → List Contact
  | [] => [a]
  | b :: l => if nameLt a.name b.name then a :: b :: l else b :: insertContact a l

/-- `updatedContacts.sort((a, b) => a.name.localeCompare(b.name, 'ar'))`
(App.tsx lines 69 and 128): a stable sort ascending by name under the
modelled Arabic collation. -/
def sortContacts (l : List Contact) : List Contact :=
  l.foldl (fun acc a => insertContact a acc) []

/-- The three pieces of component state that `handleAddContacts` reads and
writes: `contacts`, `inputValue`, `error`. -/
structure AppState where
  contacts : List Contact
  inputValue : List Char
  error : List Char
deriving DecidableEq, Repr

/-- Diagnostic set when the input is blank (App.tsx line 38). -/
def msgEnterText : List Char := str "الرجاء إدخال نص يحتوي على أسماء وأرقام."

/-- Diagnostic set when no new record was accepted (App.tsx line 64). -/
def msgNoNewData : List Char := str "لم يتم العثور على بيانات جديدة أو صالحة في النص المدخل."

/-- `handleAddContacts` (App.tsx lines 36-74). -/
def handleAddContacts (s : AppState) : AppState :=
  if jsTrim s.inputValue = [] then { s with error := msgEnterText }
  else if extractBatch (splitOnNewline s.inputValue)
      (s.contacts.map Contact.phone) = [] then
    { s with error := msgNoNewData }
  else
    { contacts := sortContacts (s.contacts ++
        extractBatch (splitOnNewline s.inputValue) (s.contacts.map Contact.phone)),
      inputValue := [], error := [] }

/-- Field error message for an empty name (App.tsx line 110). -/
def msgNameEmpty : List Char := str "الاسم لا يمكن أن يكون فارغًا."

/-- Field error message for an empty phone (App.tsx line 114). -/
def msgPhoneEmpty : List Char := str "رقم الهاتف لا يمكن أن يكون فارغًا."

/-- Field error message for a too-short phone (App.tsx line 116). -/
def msgPhoneShort : List Char := str "يجب أن يتكون الرقم من 7 أرقام على الأقل."

/-- Field error message for a duplicate phone (App.tsx line 118). -/
def msgPhoneDup : List Char := str "رقم الهاتف هذا موجود بالفعل."

/-- The `newErrors` object of `handleSave` (App.tsx line 105). -/
structure EditErrors where
  name : Option (List Char)
  phone : Option (List Char)
deriving DecidableEq, Repr

/-- JavaScript `String.prototype.length` counts UTF-16 code units. -/
def utf16Len (l : List Char) : Nat :=
  (l.map fun c => if c.toNat < 0x10000 then 1 else 2).sum

/-- Walk of the `contacts.some((c, i) => ...)` callback with the running
index `k`. -/
def phoneUsedFrom (k indexToSave : Nat) (p : List Char) : List Contact → Bool
  | [] => false
  | c :: cs =>
    (c.phone == p && k != indexToSave) || phoneUsedFrom (k + 1) indexToSave p cs

/-- `contacts.some((c, i) => c.phone === trimmedPhone && i !== indexToSave)`
(App.tsx line 117). -/
def phoneUsedElsewhere (contacts : List Contact) (indexToSave : Nat)
    (p : List Char) : Bool :=
  phoneUsedFrom 0 indexToSave p contacts

/-- The validation part of `handleSave` (App.tsx lines 105-119). -/
def validateEdit (contacts : List Contact) (indexToSave : Nat)
    (edited : Contact) : EditErrors :=
  let trimmedName := jsTrim edited.name
  let trimmedPhone := jsTrim edited.phone
  { name := if trimmedName = [] then some msgNameEmpty else none
    phone :=
      if trimmedPhone = [] then some msgPhoneEmpty
      else if utf16Len trimmedPhone < 7 then some msgPhoneShort
      else if phoneUsedElsewhere contacts indexToSave trimmedPhone then some msgPhoneDup
      else none }

/-- `Object.keys(newErrors).length > 0` (App.tsx line 121). -/
def hasErrors (e : EditErrors) : Bool := e.name.isSome || e.phone.isSome

/-- `handleSave` (App.tsx lines 104-134): the produced field errors and the
resulting collection (unchanged when any error is reported). -/
def handleSave (contacts : List Contact) (indexToSave : Nat)
    (edited : Contact) : EditErrors × List Contact :=
  if hasErrors (validateEdit contacts indexToSave edited) then
    (validateEdit contacts indexToSave edited, contacts)
  else
    (validateEdit contacts indexToSave edited,
      sortContacts (contacts.set indexToSave
        { name := jsTrim edited.name, phone := jsTrim edited.phone }))

/-- Walk of the `prev.filter((_, index) => ...)` callback with the running
index `k`. -/
def removeIndexFrom (k indexToDelete : Nat) : List Contact → List Contact
  | [] => []
  | c :: cs =>
    if k != indexToDelete then c :: removeIndexFrom (k + 1) indexToDelete cs
    else removeIndexFrom (k + 1) indexToDelete cs

/-- `handleDeleteContact` (App.tsx lines 136-140):
`prev.filter((_, index) => index !== indexToDelete)`. -/
def handleDeleteContact (contacts : List Contact) (indexToDelete : Nat) :
    List Contact :=
  removeIndexFrom 0 indexToDelete contacts

/-- `handleEditInputChange`, phone field (App.tsx line 144): every keystroke
stores `value.replace(/\D/g, '')`, so the buffer holds digits only. -/
def editPhoneInput (value : List Char) : List Char := cleanPhone value

/-- Provenance of the `editedContact.phone` buffer fed to `handleSave`: it is
either the copy of an existing contact's phone made by `handleEdit`
(App.tsx line 93) or the digit-filtered field value written by
`handleEditInputChange` (App.tsx line 144). -/
def EditedPhoneSource (contacts : List Contact) (p : List Char) : Prop :=
  (∃ c ∈ contacts, p = c.phone) ∨ (∃ v, p = editPhoneInput v)

/-- Collections reachable from the initial empty collection through batch
imports, edits saved through the edit buffer, and deletes. -/
inductive Reachable : List Contact → Prop where
  | empty : Reachable []
  | batch (s : AppState) : Reachable s.contacts →
      Reachable (handleAddContacts s).contacts
  | edit (contacts : List Contact) (i : Nat) (edited : Contact)
      (hi : i < contacts.length)
      (hsrc : EditedPhoneSource contacts edited.phone)
      (h : Reachable contacts) : Reachable (handleSave contacts i edited).2
  | delete (contacts : List Contact) (i : Nat) (h : Reachable contacts) :
      Reachable (handleDeleteContact contacts i)

/-- The per-line candidate record before any duplicate check: the phone
detection, phone cleaning, name extraction and name cleaning steps of one
loop iteration (App.tsx lines 46-56). -/
def lineCandidate (line : List Char) : Option Contact :=
  if jsTrim line = [] then none
  else
    match firstPhoneMatch line with
    | none => none
    | some phoneRaw =>
      if jsTrim ((removeFirstOcc phoneRaw line).filter isNameChar) ≠ [] ∧
          cleanPhone phoneRaw ≠ [] then
        some { name := jsTrim ((removeFirstOcc phoneRaw line).filter isNameChar),
               phone := cleanPhone phoneRaw }
      else none

/-- Keep, in order, each candidate whose phone has not been seen before
(seeded with `existingPhones`): the duplicate-filtering part of the loop. -/
def dedupPhones (seen : List (List Char)) : List Contact → List Contact
  | [] => []
  | c :: cs =>
    if c.phone ∈ seen then dedupPhones seen cs
    else c :: dedupPhones (c.phone :: seen) cs

/-- The seen-phone set after running `dedupPhones`. -/
def dedupSeen (seen : List (List Char)) : List Contact → List (List Char)
  | [] => seen
  | c :: cs =>
    if c.phone ∈ seen then dedupSeen seen cs
    else dedupSeen (c.phone :: seen) cs

/-- A collection sorted ascending by name under the modelled Arabic
collation: no contact is strictly greater than a later one. -/
def SortedByName (l : List Contact) : Prop :=
  l.Pairwise fun a b => nameLt b.name a.name = false

/-- No two records of the collection share the same phone. -/
def PhonesNodup (l : List Contact) : Prop :=
  (l.map Contact.phone).Nodup

/-- Every record's phone is a non-empty string of ASCII digits. -/
def PhonesDigits (l : List Contact) : Prop :=
  ∀ c ∈ l, c.phone ≠ [] ∧ c.phone.all Char.isDigit = true

theorem lexLt_irrefl (a : List Nat) : lexLt a a = false := by
  induction a with
  | nil => rfl
  | cons x xs ih => simp [lexLt, ih]

theorem lexLt_trans {a b c : List Nat} (hab : lexLt a b = true)
    (hbc : lexLt b c = true) : lexLt a c = true := by
  induction a generalizing b c with
  | nil =>
    cases b with
    | nil => simp [lexLt] at hab
    | cons y ys =>
      cases c with
      | nil => simp [lexLt] at hbc
      | cons z zs => simp [lexLt]
  | cons x xs ih =>
    cases b with
    | nil => simp [lexLt] at hab
    | cons y ys =>
      cases c with
      | nil => simp [lexLt] at hbc
      | cons z zs =>
        simp only [lexLt, Bool.or_eq_true, Bool.and_eq_true, decide_eq_true_eq,
          beq_iff_eq] at hab hbc ⊢
        rcases hab with h1 | ⟨h1, h1r⟩ <;> rcases hbc with h2 | ⟨h2, h2r⟩
        · exact Or.inl (Nat.lt_trans h1 h2)
        · exact Or.inl (h2 ▸ h1)
        · exact Or.inl (h1 ▸ h2)
        · exact Or.inr ⟨h1.trans h2, ih h1r h2r⟩

theorem lexLt_trichotomy (a b : List Nat) :
    lexLt a b = true ∨ a = b ∨ lexLt b a = true := by
  induction a generalizing b with
  | nil =>
    cases b with
    | nil => simp [lexLt]
    | cons y ys => simp [lexLt]
  | cons x xs ih =>
    cases b with
    | nil => simp [lexLt]
    | cons y ys =>
      rcases Nat.lt_trichotomy x y with h | h | h
      · left; simp [lexLt, h]
      · subst h
        rcases ih ys with h2 | h2 | h2
        · left; simp [lexLt, h2]
        · right; left; rw [h2]
        · right; right; simp [lexLt, h2]
      · right; right; simp [lexLt, h]

theorem nameLt_asymm {a b : List Char} (h : nameLt a b = true) :
    nameLt b a = false := by
  by_contra hc
  have hba : nameLt b a = true := by
    cases hx : nameLt b a with
    | false => exact absurd hx hc
    | true => rfl
  have := lexLt_trans (a := arKey a) h hba
  rw [lexLt_irrefl] at this
  exact Bool.noConfusion this

theorem nameLt_trans {a b c : List Char} (hab : nameLt a b = true)
    (hbc : nameLt b c = true) : nameLt a c = true :=
  lexLt_trans hab hbc

theorem nameLe_of_not_lt {a b : List Char} (h : nameLt a b = false) :
    nameLt b a = true ∨ arKey a = arKey b := by
  rcases lexLt_trichotomy (arKey a) (arKey b) with h1 | h1 | h1
  · rw [nameLt, h1] at h; exact Bool.noConfusion h
  · exact Or.inr h1
  · exact Or.inl h1

theorem nameLe_trans {a b c : List Char} (h1 : nameLt b a = false)
    (h2 : nameLt c b = false) : nameLt c a = false := by
  cases hx : nameLt c a with
  | false => rfl
  | true =>
    exfalso
    rcases nameLe_of_not_lt h2 with hbc | hbc
    · have hba : nameLt b a = true := lexLt_trans hbc hx
      rw [h1] at hba; exact Bool.noConfusion hba
    · have hba : nameLt b a = true := by
        rw [nameLt] at hx ⊢
        rw [← hbc]
        exact hx
      rw [h1] at hba; exact Bool.noConfusion hba

theorem insertContact_perm (a : Contact) (l : List Contact) :
    List.Perm (insertContact a l) (a :: l) := by
  induction l with
  | nil => exact List.Perm.refl _
  | cons b t ih =>
    simp only [insertContact]
    split
    · exact List.Perm.refl _
    · exact (ih.cons b).trans (List.Perm.swap a b t)

theorem mem_insertContact {x a : Contact} {l : List Contact}
    (h : x ∈ insertContact a l) : x = a ∨ x ∈ l := by
  have := (insertContact_perm a l).mem_iff.mp h
  simpa using this

theorem insertContact_sorted {l : List Contact} (a : Contact)
    (h : SortedByName l) : SortedByName (insertContact a l) := by
  induction l with
  | nil =>
    simp only [insertContact, SortedByName]
    exact List.pairwise_singleton _ _
  | cons b t ih =>
    rcases List.pairwise_cons.mp h with ⟨hb, ht⟩
    simp only [insertContact]
    split
    · rename_i hlt
      refine List.pairwise_cons.mpr ⟨?_, h⟩
      intro x hx
      rcases List.mem_cons.mp hx with hx | hx
      · subst hx; exact nameLt_asymm hlt
      · have hxb : nameLt x.name b.name = false := hb x hx
        cases hcon : nameLt x.name a.name with
        | false => rfl
        | true =>
          exfalso
          have : nameLt x.name b.name = true := nameLt_trans hcon hlt
          rw [hxb] at this; exact Bool.noConfusion this
    · rename_i hnlt
      have hab : nameLt a.name b.name = false := by
        cases hx : nameLt a.name b.name with
        | false => rfl
        | true => exact absurd hx hnlt
      refine List.pairwise_cons.mpr ⟨?_, ih ht⟩
      intro x hx
      rcases mem_insertContact hx with hx | hx
      · subst hx; exact hab
      · exact hb x hx

theorem foldl_insertContact_perm (l acc : List Contact) :
    List.Perm (l.foldl (fun acc a => insertContact a acc) acc) (acc ++ l) := by
  induction l generalizing acc with
  | nil => simp
  | cons x t ih =>
    simp only [List.foldl_cons]
    have h1 := ih (insertContact x acc)
    have h2 : List.Perm (insertContact x acc ++ t) ((x :: acc) ++ t) :=
      (insertContact_perm x acc).append_right t
    exact (h1.trans h2).trans List.perm_middle.symm

theorem foldl_insertContact_sorted (l : List Contact) {acc : List Contact}
    (hacc : SortedByName acc) :
    SortedByName (l.foldl (fun acc a => insertContact a acc) acc) := by
  induction l generalizing acc with
  | nil => exact hacc
  | cons x t ih => exact ih (insertContact_sorted x hacc)

theorem sortContacts_perm (l : List Contact) : List.Perm (sortContacts l) l := by
  have := foldl_insertContact_perm l []
  simpa [sortContacts] using this

theorem sortContacts_sorted (l : List Contact) : SortedByName (sortContacts l) :=
  foldl_insertContact_sorted l List.Pairwise.nil

theorem dropWhile_head_not {p : Char → Bool} {l : List Char} {c : Char}
    {cs : List Char} (h : l.dropWhile p = c :: cs) : p c = false := by
  induction l with
  | nil => simp at h
  | cons x xs ih =>
    rw [List.dropWhile_cons] at h
    split at h
    · exact ih h
    · rename_i hx
      injection h with h1 _
      subst h1
      cases hpc : p x with
      | false => rfl
      | true => exact absurd hpc hx

theorem drop_takeWhile_length (p : Char → Bool) (l : List Char) :
    l.drop (l.takeWhile p).length = l.dropWhile p := by
  calc l.drop (l.takeWhile p).length
      = (l.takeWhile p ++ l.dropWhile p).drop (l.takeWhile p).length := by
        rw [List.takeWhile_append_dropWhile]
    _ = l.dropWhile p := List.drop_left _ _

theorem tryMatchHere_spec {s m : List Char} (h : tryMatchHere s = some m) :
    List.IsPrefix m s ∧
      ((∃ t, m = '+' :: t ∧ t.all isPhoneClassChar = true ∧ 7 ≤ t.length) ∨
        (m.all isPhoneClassChar = true ∧ 7 ≤ m.length)) ∧
      (∀ c cs, s.drop m.length = c :: cs → isPhoneClassChar c = false) := by
  cases s with
  | nil => simp [tryMatchHere] at h
  | cons c0 rest =>
    simp only [tryMatchHere] at h
    by_cases hplus : c0 = '+'
    · rw [if_pos hplus] at h
      split at h
      · rename_i hlen
        injection h with h1
        subst h1
        subst hplus
        refine ⟨?_, ?_, ?_⟩
        · obtain ⟨t, ht⟩ := List.takeWhile_prefix (l := rest) isPhoneClassChar
          exact ⟨t, by simpa using congrArg (List.cons '+') ht⟩
        · exact Or.inl ⟨_, rfl, List.all_eq_true.mpr fun x hx =>
            List.mem_takeWhile_imp hx, hlen⟩
        · intro c cs hdrop
          simp only [List.length_cons, List.drop_succ_cons] at hdrop
          rw [drop_takeWhile_length] at hdrop
          exact dropWhile_head_not hdrop
      · exact absurd h (by simp)
    · rw [if_neg hplus] at h
      split at h
      · rename_i hlen
        injection h with h1
        subst h1
        refine ⟨List.takeWhile_prefix _, ?_, ?_⟩
        · exact Or.inr ⟨List.all_eq_true.mpr fun x hx =>
            List.mem_takeWhile_imp hx, hlen⟩
        · intro c cs hdrop
          rw [drop_takeWhile_length] at hdrop
          exact dropWhile_head_not hdrop
      · exact absurd h (by simp)

theorem firstPhoneMatch_none_iff {l : List Char} :
    firstPhoneMatch l = none ↔ ∀ i, tryMatchHere (l.drop i) = none := by
  induction l with
  | nil => simp [firstPhoneMatch, tryMatchHere]
  | cons c rest ih =>
    simp only [firstPhoneMatch]
    cases htry : tryMatchHere (c :: rest) with
    | some m =>
      constructor
      · intro h; simp at h
      · intro h
        have h0 := h 0
        rw [List.drop_zero] at h0
        rw [htry] at h0
        exact absurd h0 (by simp)
    | none =>
      constructor
      · intro h i
        cases i with
        | zero => rw [List.drop_zero]; exact htry
        | succ j =>
          rw [List.drop_succ_cons]
          exact ih.mp h j
      · intro h
        exact ih.mpr fun j => by
          have := h (j + 1)
          rwa [List.drop_succ_cons] at this

theorem firstPhoneMatch_some {l m : List Char} (h : firstPhoneMatch l = some m) :
    ∃ i, (∀ j, j < i → tryMatchHere (l.drop j) = none) ∧
      tryMatchHere (l.drop i) = some m := by
  induction l with
  | nil => simp [firstPhoneMatch] at h
  | cons c rest ih =>
    simp only [firstPhoneMatch] at h
    cases htry : tryMatchHere (c :: rest) with
    | some m2 =>
      rw [htry] at h
      simp only [Option.some.injEq] at h
      subst h
      exact ⟨0, fun j hj => absurd hj (by omega), by rwa [List.drop_zero]⟩
    | none =>
      rw [htry] at h
      simp only at h
      obtain ⟨i, h1, h2⟩ := ih h
      refine ⟨i + 1, ?_, by rwa [List.drop_succ_cons]⟩
      intro j hj
      cases j with
      | zero => rw [List.drop_zero]; exact htry
      | succ k =>
        rw [List.drop_succ_cons]
        exact h1 k (by omega)

theorem lineStep_of_no_match {line : List Char}
    (h : firstPhoneMatch line = none) (st : List Contact × List (List Char)) :
    lineStep st line = st := by
  unfold lineStep
  split
  · rfl
  · rw [h]

theorem lineStep_of_candidate_none {line : List Char}
    (h : lineCandidate line = none) (st : List Contact × List (List Char)) :
    lineStep st line = st := by
  unfold lineCandidate at h
  unfold lineStep
  split
  · rfl
  · rename_i htrim
    rw [if_neg htrim] at h
    split
    · rfl
    · rename_i phoneRaw hm
      rw [hm] at h
      simp only at h
      split at h
      · exact absurd h (by simp)
      · rename_i hcond
        split
        · rename_i hc
          exact absurd ⟨hc.1, hc.2.1⟩ hcond
        · rfl

theorem lineStep_of_candidate_mem {line : List Char} {c : Contact}
    (h : lineCandidate line = some c) (st : List Contact × List (List Char))
    (hmem : c.phone ∈ st.2) : lineStep st line = st := by
  unfold lineCandidate at h
  unfold lineStep
  split
  · rename_i htrim
    rw [if_pos htrim] at h
  · rename_i htrim
    rw [if_neg htrim] at h
    split
    · rename_i hm
      rw [hm] at h
    · rename_i phoneRaw hm
      rw [hm] at h
      simp only at h
      split at h
      · rename_i hcond
        injection h with h1
        subst h1
        split
        · rename_i hc
          exact absurd hmem hc.2.2
        · rfl
      · exact absurd h (by simp)

theorem lineStep_of_candidate_push {line : List Char} {c : Contact}
    (h : lineCandidate line = some c) (st : List Contact × List (List Char))
    (hmem : c.phone ∉ st.2) :
    lineStep st line = (st.1 ++ [c], c.phone :: st.2) := by
  unfold lineCandidate at h
  unfold lineStep
  split
  · rename_i htrim
    rw [if_pos htrim] at h
    exact absurd h (by simp)
  · rename_i htrim
    rw [if_neg htrim] at h
    split
    · rename_i hm
      rw [hm] at h
      exact absurd h (by simp)
    · rename_i phoneRaw hm
      rw [hm] at h
      simp only at h
      split at h
      · rename_i hcond
        injection h with h1
        subst h1
        split
        · rfl
        · rename_i hc
          exact absurd ⟨hcond.1, hcond.2, hmem⟩ hc
      · exact absurd h (by simp)

theorem foldl_lineStep_eq (lines : List (List Char)) (acc : List Contact)
    (seen : List (List Char)) :
    lines.foldl lineStep (acc, seen) =
      (acc ++ dedupPhones seen (lines.filterMap lineCandidate),
        dedupSeen seen (lines.filterMap lineCandidate)) := by
  induction lines generalizing acc seen with
  | nil => simp [dedupPhones, dedupSeen]
  | cons line rest ih =>
    simp only [List.foldl_cons, List.filterMap_cons]
    cases hc : lineCandidate line with
    | none =>
      rw [lineStep_of_candidate_none hc]
      exact ih acc seen
    | some c =>
      by_cases hmem : c.phone ∈ seen
      · rw [lineStep_of_candidate_mem hc _ hmem]
        simp only [dedupPhones, dedupSeen, if_pos hmem]
        exact ih acc seen
      · rw [lineStep_of_candidate_push hc _ hmem]
        simp only [dedupPhones, dedupSeen, if_neg hmem]
        rw [ih (acc ++ [c]) (c.phone :: seen)]
        simp

theorem extractBatch_eq_dedup (lines : List (List Char))
    (existingPhones : List (List Char)) :
    extractBatch lines existingPhones =
      dedupPhones existingPhones (lines.filterMap lineCandidate) := by
  unfold extractBatch
  rw [foldl_lineStep_eq]
  simp

theorem mem_dedupPhones {seen : List (List Char)} {cands : List Contact}
    {c : Contact} :
    c ∈ dedupPhones seen cands ↔
      c.phone ∉ seen ∧
        ∃ pre post, cands = pre ++ c :: post ∧ ∀ d ∈ pre, d.phone ≠ c.phone := by
  induction cands generalizing seen with
  | nil =>
    simp only [dedupPhones, List.not_mem_nil, false_iff]
    rintro ⟨-, pre, post, hdec, -⟩
    exact List.not_mem_nil c (hdec ▸ List.mem_append_right pre (List.mem_cons_self c post))
  | cons c0 cs ih =>
    simp only [dedupPhones]
    split
    · rename_i hmem
      rw [ih]
      constructor
      · rintro ⟨hns, pre, post, hdec, hpre⟩
        refine ⟨hns, c0 :: pre, post, by rw [hdec, List.cons_append], ?_⟩
        intro d hd
        rcases List.mem_cons.mp hd with rfl | hd
        · intro he; rw [he] at hmem; exact hns hmem
        · exact hpre d hd
      · rintro ⟨hns, pre, post, hdec, hpre⟩
        cases pre with
        | nil =>
          injection hdec with h1 _
          subst h1
          exact absurd hmem hns
        | cons p0 pre2 =>
          rw [List.cons_append] at hdec
          injection hdec with h1 h2
          exact ⟨hns, pre2, post, h2,
            fun d hd => hpre d (List.mem_cons_of_mem p0 hd)⟩
    · rename_i hmem
      simp only [List.mem_cons]
      constructor
      · rintro (rfl | hrest)
        · exact ⟨hmem, [], cs, rfl, by simp⟩
        · obtain ⟨hns, pre, post, hdec, hpre⟩ := ih.mp hrest
          have hns2 : c.phone ∉ seen :=
            fun hs => hns (List.mem_cons_of_mem _ hs)
          have hne : c0.phone ≠ c.phone := by
            intro he
            exact hns (he ▸ List.mem_cons_self _ _)
          refine ⟨hns2, c0 :: pre, post, by rw [hdec, List.cons_append], ?_⟩
          intro d hd
          rcases List.mem_cons.mp hd with rfl | hd
          · exact hne
          · exact hpre d hd
      · rintro ⟨hns, pre, post, hdec, hpre⟩
        cases pre with
        | nil =>
          injection hdec with h1 _
          exact Or.inl h1.symm
        | cons p0 pre2 =>
          rw [List.cons_append] at hdec
          injection hdec with h1 h2
          subst h1
          refine Or.inr (ih.mpr ⟨?_, pre2, post, h2,
            fun d hd => hpre d (List.mem_cons_of_mem _ hd)⟩)
          intro hc
          rcases List.mem_cons.mp hc with he | hs
          · exact hpre c0 (List.mem_cons_self _ _) he.symm
          · exact hns hs

theorem dedupPhones_nodup (seen : List (List Char)) (cands : List Contact) :
    ((dedupPhones seen cands).map Contact.phone).Nodup ∧
      ∀ p ∈ (dedupPhones seen cands).map Contact.phone, p ∉ seen := by
  induction cands generalizing seen with
  | nil => simp [dedupPhones]
  | cons c0 cs ih =>
    simp only [dedupPhones]
    split
    · exact ih seen
    · rename_i hmem
      obtain ⟨h1, h2⟩ := ih (c0.phone :: seen)
      simp only [List.map_cons]
      constructor
      · refine List.nodup_cons.mpr ⟨?_, h1⟩
        intro hc
        exact (h2 _ hc) (List.mem_cons_self _ _)
      · intro p hp
        rcases List.mem_cons.mp hp with rfl | hp
        · exact hmem
        · exact fun hs => h2 p hp (List.mem_cons_of_mem _ hs)

theorem dedupPhones_subset (seen : List (List Char)) (cands : List Contact) :
    ∀ c ∈ dedupPhones seen cands, c ∈ cands := by
  induction cands generalizing seen with
  | nil => simp [dedupPhones]
  | cons c0 cs ih =>
    simp only [dedupPhones]
    split
    · exact fun c hc => List.mem_cons_of_mem c0 (ih seen c hc)
    · intro c hc
      rcases List.mem_cons.mp hc with rfl | hc
      · exact List.mem_cons_self _ _
      · exact List.mem_cons_of_mem c0 (ih _ c hc)

theorem isDigit_not_ws {c : Char} (h : c.isDigit = true) :
    isJsWhitespace c = false := by
  simp only [Char.isDigit, ge_iff_le, Bool.and_eq_true, decide_eq_true_eq] at h
  obtain ⟨h1, h2⟩ := h
  have h1n : 48 ≤ c.toNat := h1
  have h2n : c.toNat ≤ 57 := h2
  simp only [isJsWhitespace]
  simp only [Bool.or_eq_false_iff, beq_eq_false_iff_ne, ne_eq, Bool.and_eq_false_iff,
    decide_eq_false_iff_not, not_le]
  omega

theorem mem_jsTrim {l : List Char} {x : Char} (h : x ∈ jsTrim l) : x ∈ l := by
  unfold jsTrim at h
  rw [List.mem_reverse] at h
  have h2 := (List.dropWhile_sublist isJsWhitespace).subset h
  rw [List.mem_reverse] at h2
  exact (List.dropWhile_sublist isJsWhitespace).subset h2

theorem dropWhile_eq_self_of_not {p : Char → Bool} {l : List Char}
    (h : ∀ x ∈ l, p x = false) : l.dropWhile p = l := by
  cases l with
  | nil => rfl
  | cons c cs =>
    rw [List.dropWhile_cons, if_neg]
    simp [h c (List.mem_cons_self c cs)]

theorem jsTrim_of_no_ws {l : List Char}
    (h : ∀ x ∈ l, isJsWhitespace x = false) : jsTrim l = l := by
  unfold jsTrim
  rw [dropWhile_eq_self_of_not h,
    dropWhile_eq_self_of_not fun x hx => h x (List.mem_reverse.mp hx)]
  exact List.reverse_reverse l

theorem jsTrim_all_digits {l : List Char} (h : l.all Char.isDigit = true) :
    jsTrim l = l :=
  jsTrim_of_no_ws fun x hx => isDigit_not_ws (List.all_eq_true.mp h x hx)

theorem phoneUsedFrom_iff {l : List Contact} {k i : Nat} {p : List Char} :
    phoneUsedFrom k i p l = true ↔
      ∃ j, ∃ hj : j < l.length, (l.get ⟨j, hj⟩).phone = p ∧ k + j ≠ i := by
  induction l generalizing k with
  | nil => simp [phoneUsedFrom]
  | cons c cs ih =>
    simp only [phoneUsedFrom, Bool.or_eq_true, Bool.and_eq_true, beq_iff_eq,
      bne_iff_ne, ne_eq]
    rw [ih]
    constructor
    · rintro (⟨hph, hki⟩ | ⟨j, hj, hph, hne⟩)
      · exact ⟨0, by simp, hph, by simpa using hki⟩
      · refine ⟨j + 1, by simpa using Nat.succ_lt_succ hj, ?_, by omega⟩
        rw [List.get_cons_succ]
        exact hph
    · rintro ⟨j, hj, hph, hne⟩
      cases j with
      | zero =>
        left
        exact ⟨hph, by simpa using hne⟩
      | succ j2 =>
        right
        refine ⟨j2, by simpa using Nat.lt_of_succ_lt_succ hj, ?_, by omega⟩
        rw [List.get_cons_succ] at hph
        exact hph

theorem phoneUsedElsewhere_iff {contacts : List Contact} {i : Nat}
    {p : List Char} :
    phoneUsedElsewhere contacts i p = true ↔
      ∃ j, ∃ hj : j < contacts.length,
        (contacts.get ⟨j, hj⟩).phone = p ∧ j ≠ i := by
  unfold phoneUsedElsewhere
  rw [phoneUsedFrom_iff]
  constructor
  · rintro ⟨j, hj, h1, h2⟩
    exact ⟨j, hj, h1, by omega⟩
  · rintro ⟨j, hj, h1, h2⟩
    exact ⟨j, hj, h1, by omega⟩

theorem removeIndexFrom_sublist (k i : Nat) (l : List Contact) :
    (removeIndexFrom k i l).Sublist l := by
  induction l generalizing k with
  | nil => simp [removeIndexFrom]
  | cons c cs ih =>
    simp only [removeIndexFrom]
    split
    · exact (ih (k + 1)).cons₂ c
    · exact (ih (k + 1)).cons c

theorem nodup_set {α : Type} {l : List α} {i : Nat} {a : α} (hn : l.Nodup)
    (hne : ∀ j, ∀ hj : j < l.length, j ≠ i → l.get ⟨j, hj⟩ ≠ a) :
    (l.set i a).Nodup := by
  induction l generalizing i with
  | nil => simp
  | cons x xs ih =>
    cases i with
    | zero =>
      rw [List.set_cons_zero]
      rw [List.nodup_cons] at hn ⊢
      refine ⟨?_, hn.2⟩
      intro hmem
      obtain ⟨n, hget⟩ := List.mem_iff_get.mp hmem
      refine hne (n.val + 1) (by simp) (by omega) ?_
      rw [List.get_cons_succ]
      simpa using hget
    | succ i2 =>
      rw [List.set_cons_succ]
      rw [List.nodup_cons] at hn ⊢
      refine ⟨?_, ih hn.2 ?_⟩
      · intro hmem
        rcases List.mem_or_eq_of_mem_set hmem with hmem2 | heq
        · exact hn.1 hmem2
        · exact hne 0 (by simp) (by omega) heq
      · intro j hj hne2
        have := hne (j + 1) (by simpa using Nat.succ_lt_succ hj) (by omega)
        rwa [List.get_cons_succ] at this

theorem validateEdit_name_eq (contacts : List Contact) (i : Nat)
    (edited : Contact) :
    (validateEdit contacts i edited).name =
      if jsTrim edited.name = [] then some msgNameEmpty else none := rfl

theorem validateEdit_phone_eq (contacts : List Contact) (i : Nat)
    (edited : Contact) :
    (validateEdit contacts i edited).phone =
      if jsTrim edited.phone = [] then some msgPhoneEmpty
      else if utf16Len (jsTrim edited.phone) < 7 then some msgPhoneShort
      else if phoneUsedElsewhere contacts i (jsTrim edited.phone) then
        some msgPhoneDup
      else none := rfl

theorem hasErrors_false_iff {contacts : List Contact} {i : Nat}
    {edited : Contact} :
    hasErrors (validateEdit contacts i edited) = false ↔
      jsTrim edited.name ≠ [] ∧ jsTrim edited.phone ≠ [] ∧
        ¬ utf16Len (jsTrim edited.phone) < 7 ∧
        phoneUsedElsewhere contacts i (jsTrim edited.phone) = false := by
  unfold hasErrors
  rw [validateEdit_name_eq, validateEdit_phone_eq]
  split_ifs with h1 h2 h3 h4 <;> simp_all

theorem handleSave_of_errors {contacts : List Contact} {i : Nat}
    {edited : Contact}
    (h : hasErrors (validateEdit contacts i edited) = true) :
    (handleSave contacts i edited).2 = contacts := by
  unfold handleSave
  rw [if_pos h]

theorem handleSave_of_no_errors {contacts : List Contact} {i : Nat}
    {edited : Contact}
    (h : hasErrors (validateEdit contacts i edited) = false) :
    (handleSave contacts i edited).2 =
      sortContacts (contacts.set i
        { name := jsTrim edited.name, phone := jsTrim edited.phone }) := by
  unfold handleSave
  rw [if_neg (by simp [h])]

theorem extractBatch_phones_nodup (lines : List (List Char))
    (existingPhones : List (List Char)) :
    ((extractBatch lines existingPhones).map Contact.phone).Nodup ∧
      ∀ p ∈ (extractBatch lines existingPhones).map Contact.phone,
        p ∉ existingPhones := by
  rw [extractBatch_eq_dedup]
  exact dedupPhones_nodup existingPhones _

theorem handleAddContacts_nodup {s : AppState} (hn : PhonesNodup s.contacts) :
    PhonesNodup (handleAddContacts s).contacts := by
  unfold handleAddContacts
  split
  · exact hn
  · split
    · exact hn
    · simp only
      unfold PhonesNodup
      rw [((sortContacts_perm _).map Contact.phone).nodup_iff]
      rw [List.map_append, List.nodup_append]
      obtain ⟨h1, h2⟩ := extractBatch_phones_nodup (splitOnNewline s.inputValue)
        (s.contacts.map Contact.phone)
      exact ⟨hn, h1, fun p hp hq => h2 p hq hp⟩

theorem handleSave_nodup {contacts : List Contact} {i : Nat} {edited : Contact}
    (hn : PhonesNodup contacts) :
    PhonesNodup (handleSave contacts i edited).2 := by
  cases herr : hasErrors (validateEdit contacts i edited) with
  | true => rw [handleSave_of_errors herr]; exact hn
  | false =>
    rw [handleSave_of_no_errors herr]
    obtain ⟨-, -, -, hdup⟩ := hasErrors_false_iff.mp herr
    unfold PhonesNodup
    rw [((sortContacts_perm _).map Contact.phone).nodup_iff]
    rw [List.map_set]
    apply nodup_set hn
    intro j hj hji hgets
    have hj2 : j < contacts.length := by simpa using hj
    apply absurd hdup
    simp only [Bool.not_eq_false]
    apply phoneUsedElsewhere_iff.mpr
    refine ⟨j, hj2, ?_, hji⟩
    rw [List.get_map] at hgets
    exact hgets

theorem handleDeleteContact_nodup {contacts : List Contact} {i : Nat}
    (hn : PhonesNodup contacts) :
    PhonesNodup (handleDeleteContact contacts i) :=
  ((removeIndexFrom_sublist 0 i contacts).map Contact.phone).nodup hn

theorem reachable_phones_nodup {contacts : List Contact}
    (h : Reachable contacts) : PhonesNodup contacts := by
  induction h with
  | empty => simp [PhonesNodup]
  | batch s hs ih => exact handleAddContacts_nodup ih
  | edit contacts i edited hi hsrc hr ih => exact handleSave_nodup ih
  | delete contacts i hr ih => exact handleDeleteContact_nodup ih

theorem lineCandidate_phone {line : List Char} {c : Contact}
    (h : lineCandidate line = some c) :
    c.phone ≠ [] ∧ c.phone.all Char.isDigit = true := by
  unfold lineCandidate at h
  split at h
  · exact absurd h (by simp)
  · split at h
    · exact absurd h (by simp)
    · split at h
      · rename_i hcond
        injection h with h1
        subst h1
        refine ⟨hcond.2, ?_⟩
        exact List.all_eq_true.mpr fun x hx => (List.mem_filter.mp hx).2
      · exact absurd h (by simp)

theorem extractBatch_phones_digits (lines : List (List Char))
    (existingPhones : List (List Char)) :
    ∀ c ∈ extractBatch lines existingPhones,
      c.phone ≠ [] ∧ c.phone.all Char.isDigit = true := by
  rw [extractBatch_eq_dedup]
  intro c hc
  have hmem := dedupPhones_subset _ _ c hc
  obtain ⟨line, _, hcand⟩ := List.mem_filterMap.mp hmem
  exact lineCandidate_phone hcand

theorem handleAddContacts_digits {s : AppState} (hd : PhonesDigits s.contacts) :
    PhonesDigits (handleAddContacts s).contacts := by
  unfold handleAddContacts
  split
  · exact hd
  · split
    · exact hd
    · intro c hc
      simp only at hc
      rcases List.mem_append.mp ((sortContacts_perm _).subset hc) with h | h
      · exact hd c h
      · exact extractBatch_phones_digits _ _ c h

theorem handleSave_digits {contacts : List Contact} {i : Nat} {edited : Contact}
    (hd : PhonesDigits contacts)
    (hsrc : EditedPhoneSource contacts edited.phone) :
    PhonesDigits (handleSave contacts i edited).2 := by
  cases herr : hasErrors (validateEdit contacts i edited) with
  | true => rw [handleSave_of_errors herr]; exact hd
  | false =>
    rw [handleSave_of_no_errors herr]
    obtain ⟨-, hpne, -, -⟩ := hasErrors_false_iff.mp herr
    have hdig : edited.phone.all Char.isDigit = true := by
      rcases hsrc with ⟨c, hc, he⟩ | ⟨v, he⟩
      · rw [he]; exact (hd c hc).2
      · rw [he]
        exact List.all_eq_true.mpr fun x hx => (List.mem_filter.mp hx).2
    have htrim : jsTrim edited.phone = edited.phone := jsTrim_all_digits hdig
    intro c hc
    rcases List.mem_or_eq_of_mem_set ((sortContacts_perm _).subset hc) with h | h
    · exact hd c h
    · subst h
      refine ⟨hpne, ?_⟩
      show (jsTrim edited.phone).all Char.isDigit = true
      rw [htrim]
      exact hdig

theorem handleDeleteContact_digits {contacts : List Contact} {i : Nat}
    (hd : PhonesDigits contacts) :
    PhonesDigits (handleDeleteContact contacts i) :=
  fun c hc => hd c ((removeIndexFrom_sublist 0 i contacts).subset hc)

theorem reachable_phones_digits {contacts : List Contact}
    (h : Reachable contacts) : PhonesDigits contacts := by
  induction h with
  | empty => intro c hc; exact absurd hc (List.not_mem_nil c)
  | batch s hs ih => exact handleAddContacts_digits ih
  | edit contacts i edited hi hsrc hr ih => exact handleSave_digits ih hsrc
  | delete contacts i hr ih => exact handleDeleteContact_digits ih

theorem handleAddContacts_success {s : AppState}
    (herr : (handleAddContacts s).error = []) :
    handleAddContacts s =
      { contacts := sortContacts (s.contacts ++
          extractBatch (splitOnNewline s.inputValue)
            (s.contacts.map Contact.phone)),
        inputValue := [], error := [] } := by
  unfold handleAddContacts at herr ⊢
  split at herr
  · have hmsg : msgEnterText = [] := herr
    exact absurd hmsg (by decide)
  · rename_i h1
    split at herr
    · have hmsg : msgNoNewData = [] := herr
      exact absurd hmsg (by decide)
    · rename_i h2
      rw [if_neg h1, if_neg h2]

theorem msgs_distinct :
    msgPhoneEmpty ≠ msgPhoneShort ∧ msgPhoneEmpty ≠ msgPhoneDup ∧
      msgPhoneShort ≠ msgPhoneDup := by decide

/-- C1: starting from the empty collection, every collection reachable
through batch imports, accepted edits and deletes has pairwise-distinct
phones; a batch never returns a record whose cleaned phone is in
`existingPhones` or duplicated inside the batch, and an accepted edit's
trimmed phone differs from the phone of every record at another index. -/
theorem claim1_uniqueness :
    (∀ contacts, Reachable contacts → PhonesNodup contacts) ∧
      (∀ lines existingPhones,
        ((extractBatch lines existingPhones).map Contact.phone).Nodup ∧
          ∀ p ∈ (extractBatch lines existingPhones).map Contact.phone,
            p ∉ existingPhones) ∧
      (∀ (contacts : List Contact) (i : Nat) (edited : Contact),
        hasErrors (validateEdit contacts i edited) = false →
        ∀ j, ∀ hj : j < contacts.length, j ≠ i →
          (contacts.get ⟨j, hj⟩).phone ≠ jsTrim edited.phone) := by
  refine ⟨fun _ h => reachable_phones_nodup h,
    fun lines existing => extractBatch_phones_nodup lines existing, ?_⟩
  intro contacts i edited herr j hj hji hcon
  obtain ⟨-, -, -, hdup⟩ := hasErrors_false_iff.mp herr
  rw [phoneUsedElsewhere_iff.mpr ⟨j, hj, hcon, hji⟩] at hdup
  exact Bool.noConfusion hdup

/-- Witness for C1 at a concrete reachable collection. -/
theorem claim1_uniqueness_witness :
    PhonesNodup (handleAddContacts
      { contacts := [], inputValue := str "Ali 0551234567",
        error := [] }).contacts :=
  claim1_uniqueness.1 _ (Reachable.batch _ Reachable.empty)

/-- C2 counterexample: on the line "+123456" the rule as the claim words it
(full run, plus sign included, of length at least 7) detects the substring
"+123456", but the code's regexp finds no match, so the line yields no
record. -/
theorem claim2_counterexample :
    jsTrim (str "+123456") ≠ [] ∧
      claimFirstMatch (str "+123456") = some (str "+123456") ∧
      firstPhoneMatch (str "+123456") = none ∧
      extractBatch [str "+123456"] [] = [] := by
  refine ⟨by decide, by decide, by decide, by decide⟩

/-- C2 (amended): for every line, the extractor returns the greedy match at
the first position where the regexp succeeds — an optional leading plus sign
followed by the maximal run of digit/whitespace/hyphen characters, accepted
when that run (the plus sign not counted) has at least 7 characters; when no
position matches, the line is silently skipped and contributes nothing. -/
theorem claim2_detection :
    ∀ line : List Char,
      (firstPhoneMatch line = none ↔
        ∀ i, tryMatchHere (line.drop i) = none) ∧
      (firstPhoneMatch line = none → ∀ st, lineStep st line = st) ∧
      (∀ m, firstPhoneMatch line = some m →
        ∃ i, (∀ j, j < i → tryMatchHere (line.drop j) = none) ∧
          tryMatchHere (line.drop i) = some m ∧
          List.IsPrefix m (line.drop i) ∧
          ((∃ t, m = '+' :: t ∧ t.all isPhoneClassChar = true ∧ 7 ≤ t.length) ∨
            (m.all isPhoneClassChar = true ∧ 7 ≤ m.length)) ∧
          (∀ c cs, line.drop (i + m.length) = c :: cs →
            isPhoneClassChar c = false)) := by
  intro line
  refine ⟨firstPhoneMatch_none_iff, fun h st => lineStep_of_no_match h st, ?_⟩
  intro m hm
  obtain ⟨i, h1, h2⟩ := firstPhoneMatch_some hm
  obtain ⟨hpre, hshape, hafter⟩ := tryMatchHere_spec h2
  refine ⟨i, h1, h2, hpre, hshape, ?_⟩
  intro c cs hdrop
  apply hafter c cs
  rw [List.drop_drop]
  exact hdrop

/-- Witness for C2 on concrete lines. -/
theorem claim2_detection_witness :
    lineStep ([], []) (str "no digits here") = ([], []) :=
  (claim2_detection (str "no digits here")).2.1 (by decide) ([], [])

/-- C3: the batch loop accepts exactly the per-line candidates (non-empty
cleaned name, non-empty cleaned phone) whose phone is neither in
`existingPhones` nor the phone of an earlier candidate; two lines cleaning
to the same digits yield only the first record. -/
theorem claim3_acceptance :
    (∀ lines existingPhones,
      extractBatch lines existingPhones =
        dedupPhones existingPhones (lines.filterMap lineCandidate)) ∧
      (∀ (seen : List (List Char)) (cands : List Contact) (c : Contact),
        c ∈ dedupPhones seen cands ↔
          c.phone ∉ seen ∧
            ∃ pre post, cands = pre ++ c :: post ∧
              ∀ d ∈ pre, d.phone ≠ c.phone) ∧
      extractBatch [str "Ali 0551234567", str "Omar 055-123-4567"] [] =
        [{ name := str "Ali", phone := str "0551234567" }] := by
  refine ⟨extractBatch_eq_dedup, fun seen cands c => mem_dedupPhones, by decide⟩

/-- Witness for C3: the membership characterization applied to a concrete
batch. -/
theorem claim3_acceptance_witness :
    ({ name := str "Ali", phone := str "0551234567" } : Contact) ∈
      dedupPhones []
        [{ name := str "Ali", phone := str "0551234567" },
         { name := str "Omar", phone := str "0551234567" }] :=
  (claim3_acceptance.2.1 [] _ _).mpr
    ⟨by decide, [], [{ name := str "Omar", phone := str "0551234567" }],
      rfl, by simp⟩

/-- C4: `sortContacts` always returns a permutation sorted ascending by name
under the modelled Arabic collation; every successful batch import and every
accepted edit leaves the collection in that order; on the concrete names
"يوسف", "أحمد", "Ben" the result follows Arabic-locale order, not code-point
order. -/
theorem claim4_ordering :
    (∀ l, SortedByName (sortContacts l) ∧ List.Perm (sortContacts l) l) ∧
      (∀ s : AppState, (handleAddContacts s).error = [] →
        SortedByName (handleAddContacts s).contacts ∧
          List.Perm (handleAddContacts s).contacts
            (s.contacts ++ extractBatch (splitOnNewline s.inputValue)
              (s.contacts.map Contact.phone))) ∧
      (∀ (contacts : List Contact) (i : Nat) (edited : Contact),
        hasErrors (validateEdit contacts i edited) = false →
        SortedByName (handleSave contacts i edited).2 ∧
          List.Perm (handleSave contacts i edited).2
            (contacts.set i
              { name := jsTrim edited.name, phone := jsTrim edited.phone })) ∧
      (handleAddContacts
          { contacts := [],
            inputValue := str "يوسف 0551234567\nأحمد 0509876543\nBen 0588765432",
            error := [] }).contacts =
        [{ name := str "أحمد", phone := str "0509876543" },
         { name := str "يوسف", phone := str "0551234567" },
         { name := str "Ben", phone := str "0588765432" }] := by
  refine ⟨fun l => ⟨sortContacts_sorted l, sortContacts_perm l⟩, ?_, ?_, by decide⟩
  · intro s herr
    rw [handleAddContacts_success herr]
    exact ⟨sortContacts_sorted _, sortContacts_perm _⟩
  · intro contacts i edited herr
    rw [handleSave_of_no_errors herr]
    exact ⟨sortContacts_sorted _, sortContacts_perm _⟩

/-- Witness for C4 at a concrete successful batch import. -/
theorem claim4_ordering_witness :
    SortedByName (handleAddContacts
      { contacts := [], inputValue := str "Ben 0551234567",
        error := [] }).contacts :=
  (claim4_ordering.2.1
    { contacts := [], inputValue := str "Ben 0551234567", error := [] }
    (by decide)).1

/-- C5: a blank or whitespace-only input produces the "empty input"
diagnostic with state otherwise untouched; a non-blank input from which no
record is accepted produces the "no new valid data" diagnostic with state
otherwise untouched; in every other case the import succeeds, clearing the
diagnostic and the input buffer, and no further error condition exists. -/
theorem claim5_outcomes :
    ∀ s : AppState,
      (jsTrim s.inputValue = [] →
        handleAddContacts s = { s with error := msgEnterText }) ∧
      (jsTrim s.inputValue ≠ [] →
        extractBatch (splitOnNewline s.inputValue)
          (s.contacts.map Contact.phone) = [] →
        handleAddContacts s = { s with error := msgNoNewData }) ∧
      (jsTrim s.inputValue ≠ [] →
        extractBatch (splitOnNewline s.inputValue)
          (s.contacts.map Contact.phone) ≠ [] →
        (handleAddContacts s).error = [] ∧
          (handleAddContacts s).inputValue = []) ∧
      ((handleAddContacts s).error = [] ∨
        handleAddContacts s = { s with error := msgEnterText } ∨
        handleAddContacts s = { s with error := msgNoNewData }) := by
  intro s
  refine ⟨?_, ?_, ?_, ?_⟩
  · intro h
    unfold handleAddContacts
    rw [if_pos h]
  · intro h1 h2
    unfold handleAddContacts
    rw [if_neg h1, if_pos h2]
  · intro h1 h2
    unfold handleAddContacts
    rw [if_neg h1, if_neg h2]
    exact ⟨rfl, rfl⟩
  · unfold handleAddContacts
    split_ifs with h1 h2
    · right; left; rfl
    · right; right; rfl
    · left; rfl

/-- Witness for C5 at a whitespace-only input. -/
theorem claim5_outcomes_witness :
    handleAddContacts { contacts := [], inputValue := str "   ", error := [] } =
      { contacts := [], inputValue := str "   ", error := msgEnterText } :=
  (claim5_outcomes _).1 (by decide)

/-- C6: `validateEdit` trims both fields and reports exactly these field
errors — empty name; empty phone; trimmed phone shorter than 7; trimmed
phone equal to the phone of a record at another index (the edited index
itself excluded, so a no-op save passes) — and `handleSave` leaves the
collection unchanged when any error is reported, otherwise replaces the
record at the edited index with the trimmed values (and re-sorts). -/
theorem claim6_edit_validation :
    ∀ (contacts : List Contact) (i : Nat) (edited : Contact),
      i < contacts.length →
      ((validateEdit contacts i edited).name = some msgNameEmpty ↔
        jsTrim edited.name = []) ∧
      ((validateEdit contacts i edited).phone = some msgPhoneEmpty ↔
        jsTrim edited.phone = []) ∧
      ((validateEdit contacts i edited).phone = some msgPhoneShort ↔
        jsTrim edited.phone ≠ [] ∧ utf16Len (jsTrim edited.phone) < 7) ∧
      ((validateEdit contacts i edited).phone = some msgPhoneDup ↔
        jsTrim edited.phone ≠ [] ∧ ¬ utf16Len (jsTrim edited.phone) < 7 ∧
          ∃ j, ∃ hj : j < contacts.length,
            (contacts.get ⟨j, hj⟩).phone = jsTrim edited.phone ∧ j ≠ i) ∧
      (hasErrors (validateEdit contacts i edited) = true →
        (handleSave contacts i edited).2 = contacts) ∧
      (hasErrors (validateEdit contacts i edited) = false →
        (handleSave contacts i edited).2 =
          sortContacts (contacts.set i
            { name := jsTrim edited.name, phone := jsTrim edited.phone })) := by
  intro contacts i edited hi
  have d1 := msgs_distinct.1
  have d2 := msgs_distinct.2.1
  have d3 := msgs_distinct.2.2
  refine ⟨?_, ?_, ?_, ?_, fun h => handleSave_of_errors h,
    fun h => handleSave_of_no_errors h⟩
  · rw [validateEdit_name_eq]
    split_ifs with h <;> simp [h]
  · rw [validateEdit_phone_eq]
    split_ifs with h1 h2 h3
    · simp [h1]
    · simp [h1, d1.symm]
    · simp [h1, d2.symm]
    · simp [h1]
  · rw [validateEdit_phone_eq]
    split_ifs with h1 h2 h3
    · simp [h1, d1]
    · simp [h1, h2]
    · simp [h2, d3.symm]
    · simp [h2]
  · rw [validateEdit_phone_eq]
    split_ifs with h1 h2 h3
    · simp [h1, d2]
    · simp [h2, d3]
    · constructor
      · intro _
        exact ⟨h1, h2, phoneUsedElsewhere_iff.mp h3⟩
      · intro _; rfl
    · constructor
      · intro h
        exact absurd h (by simp)
      · rintro ⟨-, -, hex⟩
        exact absurd (phoneUsedElsewhere_iff.mpr hex) h3

/-- Witness for C6 at a concrete one-record collection. -/
theorem claim6_edit_validation_witness :
    (validateEdit [{ name := str "Ali", phone := str "1234567" }] 0
        { name := str "", phone := str "1234567" }).name =
      some msgNameEmpty ↔ jsTrim (str "") = [] :=
  (claim6_edit_validation [{ name := str "Ali", phone := str "1234567" }] 0
    { name := str "", phone := str "1234567" } (by decide)).1

/-- C7: the batch path has no minimum length — the line "Ali 12 34-5" is
accepted with the 5-digit phone "12345" — while the edit path rejects every
candidate whose trimmed phone is shorter than 7 and leaves the collection
unchanged. -/
theorem claim7_min_length_asymmetry :
    (extractBatch [str "Ali 12 34-5"] [] =
        [{ name := str "Ali", phone := str "12345" }] ∧
      utf16Len (str "12345") < 7) ∧
      (∀ (contacts : List Contact) (i : Nat) (edited : Contact),
        utf16Len (jsTrim edited.phone) < 7 →
        (validateEdit contacts i edited).phone.isSome = true ∧
          (handleSave contacts i edited).2 = contacts) := by
  refine ⟨⟨by decide, by decide⟩, ?_⟩
  intro contacts i edited h
  have hphone : (validateEdit contacts i edited).phone.isSome = true := by
    rw [validateEdit_phone_eq]
    split_ifs with h1 <;> simp_all
  refine ⟨hphone, ?_⟩
  apply handleSave_of_errors
  unfold hasErrors
  rw [hphone]
  simp

/-- Witness for C7 at a concrete short phone. -/
theorem claim7_min_length_asymmetry_witness :
    (validateEdit [] 0 { name := str "Bob", phone := str "123" }).phone.isSome =
        true ∧
      (handleSave [] 0 { name := str "Bob", phone := str "123" }).2 = [] :=
  claim7_min_length_asymmetry.2 [] 0
    { name := str "Bob", phone := str "123" } (by decide)

/-- C8: every record returned by the batch extractor has a non-empty,
digits-only phone, and every reachable collection (batch imports, edits
saved through the digit-filtered edit buffer, deletes) keeps that
invariant. -/
theorem claim8_digits_only :
    (∀ lines existingPhones, ∀ c ∈ extractBatch lines existingPhones,
      c.phone ≠ [] ∧ c.phone.all Char.isDigit = true) ∧
      (∀ contacts, Reachable contacts → PhonesDigits contacts) :=
  ⟨extractBatch_phones_digits, fun _ h => reachable_phones_digits h⟩

/-- Witness for C8 at a concrete reachable collection. -/
theorem claim8_digits_only_witness :
    PhonesDigits (handleAddContacts
      { contacts := [], inputValue := str "Ali 0551234567",
        error := [] }).contacts :=
  claim8_digits_only.2 _ (Reachable.batch _ Reachable.empty)

/-- C9: the two-line example input yields exactly the two expected records
(the trailing comma stripped from the second name) and the final collection
is in Arabic-collation order. -/
theorem claim9_end_to_end :
    extractBatch (splitOnNewline
        (str "محمد عبدالله 0551234567\nفاطمة خالد, 0509876543")) [] =
      [{ name := str "محمد عبدالله", phone := str "0551234567" },
       { name := str "فاطمة خالد", phone := str "0509876543" }] ∧
      (handleAddContacts
          { contacts := [],
            inputValue := str "محمد عبدالله 0551234567\nفاطمة خالد, 0509876543",
            error := [] }).contacts =
        [{ name := str "فاطمة خالد", phone := str "0509876543" },
         { name := str "محمد عبدالله", phone := str "0551234567" }] ∧
      SortedByName
        [{ name := str "فاطمة خالد", phone := str "0509876543" },
         { name := str "محمد عبدالله", phone := str "0551234567" }] := by
  refine ⟨by decide, by decide, ?_⟩
  unfold SortedByName
  decide

/-- C10: the name filter keeps every character of the block U+0600-U+06FF,
including Arabic-Indic digits and the Arabic comma; a line with an
Arabic-Indic digit in the name is accepted with that digit kept in the name,
while the phone regexp class and the phone cleaner recognise only ASCII
digits, so such characters never enter a cleaned phone. -/
theorem claim10_arabic_digits :
    (∀ c : Char, 0x600 ≤ c.toNat → c.toNat ≤ 0x6FF → isNameChar c = true) ∧
      (0x660 ≤ ('٢').toNat ∧ ('٢').toNat ≤ 0x669 ∧ isNameChar '٢' = true ∧
        isPhoneClassChar '٢' = false ∧ ('٢').isDigit = false) ∧
      (('،').toNat = 0x60C ∧ isNameChar '،' = true) ∧
      extractBatch [str "علي٢ 0551234567"] [] =
        [{ name := str "علي٢", phone := str "0551234567" }] ∧
      ('٢') ∈ str "علي٢" ∧
      (∀ l : List Char, ∀ c ∈ cleanPhone l, c.isDigit = true) := by
  refine ⟨?_, by decide, by decide, by decide, by decide, ?_⟩
  · intro c h1 h2
    simp [isNameChar, h1, h2]
  · intro l c hc
    exact (List.mem_filter.mp hc).2

/-- Witness for C10: the blanket U+0600-U+06FF rule applied at a concrete
character. -/
theorem claim10_arabic_digits_witness : isNameChar 'ب' = true :=
  claim10_arabic_digits.1 'ب' (by decide) (by decide)

end NameReg
